import Mathlib

/-!
# Shallow embedding of `src/app/hazard_options.py`

This file embeds the core of the `create_hazard_options` repository
(`src/app/hazard_options.py`) in Lean 4 and proves properties of it.

Modelling conventions:
* A Python JSON-ish value is `JVal` (strings, integers, lists).  The records
  handled by the program are Python `dict`s whose values are such `JVal`s;
  they are modelled as ordered association lists `Rec = List (String × JVal)`
  (Python dicts preserve insertion order).  Python dict equality is
  key-order-insensitive and is modelled by `recEq`.
* Python `str` operations used by the source (`startswith`, `len`, indexing,
  slicing, `replace`, `in`) are modelled over the character list of the
  string (`pyStartsWith`, `pyReplace`, `containsSub`, `List.drop`/`take`).
* Python's `str.format` / `str.format_map` template engine is modelled by
  `tokenize` (parsing `{name}` placeholders, `{{`/`}}` escapes, and
  rejecting a stray `}` or a malformed field name) followed by `pyFmtTokens`
  (strict mode fails on an unresolved placeholder, modelling `KeyError`;
  non-strict mode leaves it verbatim, modelling the source's `CustomDict`).
  Field names with format specs, conversions, attribute or index access
  (`:` `!` `.` `[` `]`), empty or all-digit (positional) names are mapped to
  failure; the source's templates use plain keyword names only.
* Fallible Python code (KeyError / TypeError / ValueError) is modelled with
  `Option`: `none` is an uncaught exception.
-/

/-- A JSON-ish Python value as used by the program: strings, integers,
and lists of values.  (The program's records never nest dicts inside
values; link arrays hold strings and `year_options` holds scalars.) -/
inductive JVal where
  | str (s : String)
  | num (n : Int)
  | arr (l : List JVal)
deriving Repr

mutual

/-- Structural equality on `JVal` (Python `==` on these values: lists are
compared elementwise in order). -/
def JVal.beq : JVal → JVal → Bool
  | .str a, .str b => a == b
  | .num a, .num b => a == b
  | .arr a, .arr b => JVal.beqList a b
  | _, _ => false

/-- Elementwise `JVal.beq` on lists. -/
def JVal.beqList : List JVal → List JVal → Bool
  | [], [] => true
  | x :: xs, y :: ys => JVal.beq x y && JVal.beqList xs ys
  | _, _ => false

end

instance : BEq JVal := ⟨JVal.beq⟩

mutual

theorem JVal.beq_iff : ∀ (a b : JVal), (JVal.beq a b = true) ↔ a = b
  | .str x, .str y => by simp [JVal.beq]
  | .str _, .num _ => by simp [JVal.beq]
  | .str _, .arr _ => by simp [JVal.beq]
  | .num _, .str _ => by simp [JVal.beq]
  | .num x, .num y => by simp [JVal.beq]
  | .num _, .arr _ => by simp [JVal.beq]
  | .arr _, .str _ => by simp [JVal.beq]
  | .arr _, .num _ => by simp [JVal.beq]
  | .arr xs, .arr ys => by
      have h := JVal.beqList_iff xs ys
      simp [JVal.beq, h]

theorem JVal.beqList_iff : ∀ (xs ys : List JVal), (JVal.beqList xs ys = true) ↔ xs = ys
  | [], [] => by simp [JVal.beqList]
  | [], _ :: _ => by simp [JVal.beqList]
  | _ :: _, [] => by simp [JVal.beqList]
  | x :: xs, y :: ys => by
      have h1 := JVal.beq_iff x y
      have h2 := JVal.beqList_iff xs ys
      simp [JVal.beqList, h1, h2]

end

instance : LawfulBEq JVal where
  eq_of_beq h := (JVal.beq_iff _ _).mp h
  rfl := (JVal.beq_iff _ _).mpr rfl

instance : DecidableEq JVal :=
  fun a b => decidable_of_iff (JVal.beq a b = true) (JVal.beq_iff a b)

/-- A Python dict as used by the program: an insertion-ordered association
list from string keys to values. -/
abbrev Rec := List (String × JVal)

/-- Python `d[k]` read: first binding of key `k` (`none` models `KeyError`). -/
def lookupKey : Rec → String → Option JVal
  | [], _ => none
  | (k', v) :: rest, k => if k' == k then some v else lookupKey rest k

/-- Python `d[k] = v` write: replace the first binding of `k` in place
(keeping its position), or append a new binding at the end. -/
def setKey : Rec → String → JVal → Rec
  | [], k, v => [(k, v)]
  | (k', v') :: rest, k, v =>
      if k' == k then (k, v) :: rest else (k', v') :: setKey rest k v

/-- Python `dict.__eq__`: two dicts are equal iff they have the same keys
with equal values (insertion order is irrelevant).  On records with
duplicate-free keys this is exactly Python dict equality. -/
def recEq (a b : Rec) : Bool :=
  a.length == b.length && a.all (fun kv => lookupKey b kv.1 == some kv.2)

/-- Loop body of `dedupe_dict`: fold the input into the `unique` accumulator,
appending an item only when no already-kept item is dict-equal to it. -/
def dedupeAux (seen : List Rec) : List Rec → List Rec
  | [] => seen
  | x :: xs =>
      if seen.any (fun u => recEq u x) then dedupeAux seen xs
      else dedupeAux (seen ++ [x]) xs

/-- Embeds `dedupe_dict` (hazard_options.py:219): removes duplicates from a
list of dicts, keeping the first occurrence, in first-seen order. -/
def dedupe_dict (dict_list : List Rec) : List Rec :=
  dedupeAux [] dict_list

/-- Models Python `s.startswith(pre)`. -/
def pyStartsWith (s pre : String) : Bool :=
  pre.data.isPrefixOf s.data

/-- Auxiliary for `pyReplace`: replace every leftmost non-overlapping
occurrence of the non-empty pattern `pat` by `rep`.  The fuel argument only
bounds the recursion (each step consumes at least one character, so fuel
equal to the length of the text never runs out). -/
def replaceAux (pat rep : List Char) : Nat → List Char → List Char
  | _, [] => []
  | 0, l => l
  | fuel + 1, c :: rest =>
      if pat.isPrefixOf (c :: rest) then
        rep ++ replaceAux pat rep fuel (rest.drop (pat.length - 1))
      else
        c :: replaceAux pat rep fuel rest

/-- Models Python `s.replace(pat, rep)` (all leftmost non-overlapping
occurrences).  The program never calls `replace` with an empty pattern;
that unused case is mapped to the identity. -/
def pyReplace (s pat rep : String) : String :=
  match pat.data with
  | [] => s
  | _ :: _ => String.mk (replaceAux pat.data rep.data s.data.length s.data)

/-- Models Python `pat in s` (substring containment). -/
def containsSub (pat : List Char) : List Char → Bool
  | [] => pat.isEmpty
  | c :: rest => pat.isPrefixOf (c :: rest) || containsSub pat rest

/-- Embeds the label computation of `get_hazard_types`
(hazard_options.py:87): `re.sub(r"(?<!^)(?=[A-Z])", " ", s)` inserts a
space before every interior ASCII-uppercase character. -/
def camelLabel (s : String) : String :=
  match s.data with
  | [] => ""
  | c :: rest =>
      String.mk (c :: rest.flatMap (fun d => if d.isUpper then [' ', d] else [d]))

/-- Embeds `get_hazard_types` (hazard_options.py:75), applied to the
document's `osc-hazard:hazard_type` string. -/
def get_hazard_types (hazard_type : String) : List Rec :=
  dedupe_dict [[("label", JVal.str (camelLabel hazard_type)),
                ("value", JVal.str hazard_type)]]

/-- Parameter map of a document: `osc-hazard:params`, an insertion-ordered
dict from parameter name to the ordered list of its possible values. -/
abbrev Params := List (String × List String)

/-- Python `k in params` / `params[k]` on the parameter dict. -/
def lookupParam : Params → String → Option (List String)
  | [], _ => none
  | (k', v) :: rest, k => if k' == k then some v else lookupParam rest k

/-- Embeds `get_climate_model_options` (hazard_options.py:92): one
`{"value": gcm, "label": "CMIP6: " + gcm}` record per `gcm` value when the
`gcm` key is present, else the empty list.  (Note: the source applies no
`dedupe_dict` here, unlike the other three extractors.) -/
def get_climate_model_options (params : Params) : List Rec :=
  match lookupParam params "gcm" with
  | some gcms =>
      gcms.map (fun gcm =>
        [("value", JVal.str gcm), ("label", JVal.str ("CMIP6: " ++ gcm))])
  | none => []

/-- A scenario descriptor: its `id` string and its `years` list. -/
abbrev Scenario := String × List JVal

/-- The scenario-label computation inlined in `get_scenario_options`
(hazard_options.py:120): `ssp` ids of length 6 become
`SSP<c3>-<c4>.<c5..>`, `rcp` ids become `RCP-` plus the suffix with every
`p` replaced by `.`, anything else is unchanged. -/
def scenarioLabel (id : String) : String :=
  if pyStartsWith id "ssp" && id.data.length == 6 then
    "SSP" ++ String.mk (id.data.drop 3 |>.take 1) ++ "-"
      ++ String.mk (id.data.drop 4 |>.take 1) ++ "."
      ++ String.mk (id.data.drop 5)
  else if pyStartsWith id "rcp" then
    "RCP-" ++ pyReplace (String.mk (id.data.drop 3)) "p" "."
  else id

/-- Embeds `get_scenario_options` (hazard_options.py:108): one
`{"label": …, "value": id, "year_options": years}` record per scenario
descriptor, deduplicated. -/
def get_scenario_options (scenarios : List Scenario) : List Rec :=
  dedupe_dict (scenarios.map (fun sc =>
    [("label", JVal.str (scenarioLabel sc.1)),
     ("value", JVal.str sc.1),
     ("year_options", JVal.arr sc.2)]))

/-- A parsed template token: a literal character or a `{name}` placeholder. -/
inductive Tok where
  | lit (c : Char)
  | hole (name : String)
deriving DecidableEq, Repr


/-- A field name acceptable to the modelled subset of Python's format
mini-language: non-empty, not all digits (which would be a positional
reference), and free of the special characters `{ } . [ ] ! :` (attribute
or index access, conversions, and format specs are outside the model). -/
def validName (s : String) : Bool :=
  !s.data.isEmpty && !s.data.all Char.isDigit &&
    s.data.all (fun c => !(c == '{' || c == '}' || c == '.' || c == '['
      || c == ']' || c == '!' || c == ':'))

/-- Scanner for `tokenize`.  The first argument is the mode: `none` scans
template text; `some acc` is inside a `{…}` field, with the name characters
read so far accumulated in reverse in `acc`. -/
def tokAux : Option (List Char) → List Char → Option (List Tok)
  | none, [] => some []
  | some _, [] => none
  | none, c :: rest =>
      if c = '{' then
        match rest with
        | [] => none
        | c2 :: rest2 =>
            if c2 = '{' then (Tok.lit '{' :: ·) <$> tokAux none rest2
            else if c2 = '}' then none
            else tokAux (some [c2]) rest2
      else if c = '}' then
        match rest with
        | [] => none
        | c2 :: rest2 =>
            if c2 = '}' then (Tok.lit '}' :: ·) <$> tokAux none rest2
            else none
      else (Tok.lit c :: ·) <$> tokAux none rest
  | some acc, c :: rest =>
      if c = '}' then
        if validName (String.mk acc.reverse) then
          (Tok.hole (String.mk acc.reverse) :: ·) <$> tokAux none rest
        else none
      else tokAux (some (c :: acc)) rest

/-- Parse a format template into tokens.  `{{` and `}}` are brace escapes,
`{name}` is a placeholder, a stray `}`, an unterminated `{` or a malformed
field name is an error (`ValueError`/unsupported construct). -/
def tokenize : List Char → Option (List Tok) :=
  tokAux none

/-- Substitution mapping of one combination: parameter name to chosen value. -/
abbrev Subst := List (String × String)

/-- Python `m[k]` on the substitution mapping. -/
def lookupSubst : Subst → String → Option String
  | [], _ => none
  | (k', v) :: rest, k => if k' == k then some v else lookupSubst rest k

/-- Substitute a token stream.  In strict mode (`str.format(**m)`) an
unresolved placeholder fails (`KeyError`); otherwise
(`str.format_map(CustomDict(**m))`) it is kept verbatim as `{name}`. -/
def pyFmtTokens (strict : Bool) (m : Subst) : List Tok → Option String
  | [] => some ""
  | .lit c :: ts => (fun s => c.toString ++ s) <$> pyFmtTokens strict m ts
  | .hole n :: ts =>
      match lookupSubst m n with
      | some v => (fun s => v ++ s) <$> pyFmtTokens strict m ts
      | none =>
          if strict then none
          else (fun s => "\x7b" ++ n ++ "\x7d" ++ s) <$> pyFmtTokens strict m ts

/-- Models Python `tpl.format(**m)` with keyword arguments `m`. -/
def pyFormat (tpl : String) (m : Subst) : Option String :=
  (tokenize tpl.data).bind (pyFmtTokens true m)

/-- Models Python `tpl.format_map(CustomDict(**m))`, the source's
missing-key-tolerant formatting (hazard_options.py:136): an unresolved
placeholder renders as the literal `{name}`. -/
def pyFormatMap (tpl : String) (m : Subst) : Option String :=
  (tokenize tpl.data).bind (pyFmtTokens false m)

/-- Render one token with the non-strict (`CustomDict`) policy. -/
def renderTok (m : Subst) : Tok → String
  | .lit c => c.toString
  | .hole n =>
      match lookupSubst m n with
      | some v => v
      | none => "\x7b" ++ n ++ "\x7d"

/-- Render a token stream with the non-strict (`CustomDict`) policy:
unresolved placeholders appear verbatim as `{name}`. -/
def renderNS (m : Subst) : List Tok → String
  | [] => ""
  | t :: ts => renderTok m t ++ renderNS m ts

/-- The names of the placeholders of a token stream. -/
def holeNames : List Tok → List String
  | [] => []
  | .lit _ :: ts => holeNames ts
  | .hole n :: ts => n :: holeNames ts

/-- One document: the `osc-hazard:*` properties read by the program. -/
structure Doc where
  hazard_type : String
  params : Params
  scenarios : List Scenario
  display_name : String
  path : String
  indicator_id : String
  indicator_model_id : String
  indicator_model_gcm : String
deriving Repr

/-- Row-major cross-product of the parameter value lists, exactly
`itertools.product(*params.values())`: the first list varies slowest, the
last varies fastest; an empty family yields the single empty combination. -/
def listProd : List (List String) → List (List String)
  | [] => [[]]
  | l :: ls => l.flatMap (fun x => (listProd ls).map (x :: ·))

/-- One iteration of the per-key `display_name` loop in
`get_indicator_options` (hazard_options.py:162): if `key` does not occur as
a substring of the `indicator_id` template, the `{key}` placeholder is first
stripped from `display_name`; either way the result is strictly formatted
with the combination. -/
def dnForKey (d : Doc) (pd : Subst) (key : String) : Option String :=
  if containsSub key.data d.indicator_id.data then
    pyFormat d.display_name pd
  else
    pyFormat (pyReplace d.display_name ("\x7b" ++ key ++ "\x7d") "") pd

/-- The `indicator_model_id` / `indicator_model_gcm` suffixes appended to the
formatted identifier (hazard_options.py:177).  `indicator_model_id` is
appended (with `/` replaced by `_`) when non-empty; `indicator_model_gcm`
is appended unless it is the sentinel `unknown` or the literal `{gcm}`. -/
def withAppends (d : Doc) (s : String) : String :=
  let s1 := if d.indicator_model_id == "" then s
            else s ++ "_" ++ pyReplace d.indicator_model_id "/" "_"
  if d.indicator_model_gcm == "unknown" || d.indicator_model_gcm == "\x7bgcm\x7d"
  then s1
  else s1 ++ "_" ++ d.indicator_model_gcm

/-- Loop body of `get_indicator_options` (hazard_options.py:154) for one
combination `pd`: compute the display name (the last parameter key's
computation stands, but every key's computation must succeed), the path
(missing-key-tolerant formatting), and the indicator identifier
(`/`→`_` on the template, then strict formatting, then the suffixes);
with an empty combination the raw `display_name` and `path` are used. -/
def indicatorRecord (d : Doc) (pd : Subst) : Option Rec := do
  let dn ←
    match pd with
    | [] => some d.display_name
    | _ => do
        let dns ← (pd.map Prod.fst).mapM (dnForKey d pd)
        dns.getLast?
  let path ←
    match pd with
    | [] => some d.path
    | _ => pyFormatMap d.path pd
  let iid ← pyFormat (pyReplace d.indicator_id "/" "_") pd
  pure [("label", JVal.str dn),
        ("value", JVal.str (withAppends d iid)),
        ("path", JVal.str path)]

/-- Embeds `get_indicator_options` (hazard_options.py:141): one record per
combination of the cross-product of the parameter values, then
`dedupe_dict`; `none` models an uncaught formatting exception. -/
def get_indicator_options (d : Doc) : Option (List Rec) := do
  let combos := listProd (d.params.map Prod.snd)
  let recs ← combos.mapM (fun vs =>
    indicatorRecord d ((d.params.map Prod.fst).zip vs))
  pure (dedupe_dict recs)

/-- One entry of the `options_dicts` argument of `update_options`: a dict
`{"name": fieldName, "list": sourceList}`. -/
structure OptsDict where
  name : String
  list : List Rec
deriving Repr

/-- The `"value"` fields drawn from a source list, in order
(the comprehension `[option["value"] for option in options_list]`);
`none` models a `KeyError` on a record without a `"value"` key. -/
def getValues (l : List Rec) : Option (List JVal) :=
  l.mapM (fun r => lookupKey r "value")

/-- Found-branch body of `update_options` (hazard_options.py:261) for one
`options_dicts` entry: when the source list is non-empty, extend the
matched record's `fieldName` array by the source values not already present
in it (membership tested against the array as it was before the extension).
A missing `fieldName` key models `KeyError`; a non-list value models the
`+=` `TypeError`. -/
def applySpecFound (m : Rec) (sp : OptsDict) : Option Rec :=
  if sp.list.isEmpty then some m
  else do
    let vals ← getValues sp.list
    match lookupKey m sp.name with
    | some (JVal.arr a) =>
        some (setKey m sp.name (JVal.arr (a ++ vals.filter (fun v => !a.elem v))))
    | _ => none

/-- Not-found-branch body of `update_options` (hazard_options.py:273) for one
`options_dicts` entry: when the source list is non-empty, set the incoming
record's `fieldName` to the list of all source values. -/
def applySpecNew (r : Rec) (sp : OptsDict) : Option Rec :=
  if sp.list.isEmpty then some r
  else do
    let vals ← getValues sp.list
    some (setKey r sp.name (JVal.arr vals))

/-- One iteration of the outer `for single_item in single_list` loop of
`update_options` (hazard_options.py:258), recursing over the accumulator
exactly as the inner `for main_item in main_list` loop walks it: each
walked record's `"label"` is read and compared against the incoming
record's `"label"` (either read failing models the `KeyError`); the first
match is updated in place and the walk stops (`break`); falling off the end
(`for`/`else`) augments the incoming record and appends it. -/
def updateOne (specs : List OptsDict) (item : Rec) : List Rec → Option (List Rec)
  | [] => do
      let item' ← if specs.isEmpty then pure item
                  else specs.foldlM applySpecNew item
      pure [item']
  | r :: rs => do
      let ml ← lookupKey r "label"
      let il ← lookupKey item "label"
      if ml == il then do
        let m' ← specs.foldlM applySpecFound r
        pure (m' :: rs)
      else do
        let rest ← updateOne specs item rs
        pure (r :: rest)

/-- Embeds `update_options` (hazard_options.py:236): fold every incoming
record of `single_list` into the accumulator `main_list`, threading the
accumulator. -/
def update_options (single_list main_list : List Rec)
    (options_dicts : List OptsDict) : Option (List Rec) :=
  single_list.foldlM (fun acc item => updateOne options_dicts item acc) main_list

/-- Embeds `get_menu_items_from_file` (hazard_options.py:193): the four
per-document option lists, in the source's return order
(indicator, climate model, scenario, hazard type). -/
def get_menu_items_from_file (d : Doc) :
    Option (List Rec × List Rec × List Rec × List Rec) := do
  let climate_model_options := get_climate_model_options d.params
  let scenario_options := get_scenario_options d.scenarios
  let indicator_options ← get_indicator_options d
  let hazard_types := get_hazard_types d.hazard_type
  pure (indicator_options, climate_model_options, scenario_options, hazard_types)

/-- The four global accumulator lists of `create_menu_options`. -/
structure Accs where
  indicator_options : List Rec
  climate_model_options : List Rec
  scenario_options : List Rec
  hazard_types : List Rec
deriving Repr, DecidableEq

/-- One iteration of the `for item in item_links` loop of
`create_menu_options` (hazard_options.py:299): extract the document's four
lists and merge them into the accumulators with the source's linkage
topology (hazard types link to indicators; indicators link to climate
models and scenarios; climate models link to scenarios; scenarios link to
nothing), in the source's call order. -/
def mergeStep (acc : Accs) (d : Doc) : Option Accs := do
  let (indicator_single, climate_single, scenario_single, hazard_single) ←
    get_menu_items_from_file d
  let hazard_types ← update_options hazard_single acc.hazard_types
    [⟨"indicator_options", indicator_single⟩]
  let indicator_options ← update_options indicator_single acc.indicator_options
    [⟨"climate_model_options", climate_single⟩, ⟨"scenario_options", scenario_single⟩]
  let climate_model_options ← update_options climate_single acc.climate_model_options
    [⟨"scenario_options", scenario_single⟩]
  let scenario_options ← update_options scenario_single acc.scenario_options []
  pure ⟨indicator_options, climate_model_options, scenario_options, hazard_types⟩

/-- Embeds `create_menu_options` (hazard_options.py:284) with the fetched
documents abstracted as an input list: fold every document through
`mergeStep`, starting from four empty accumulators. -/
def create_menu_options (docs : List Doc) : Option Accs :=
  docs.foldlM mergeStep ⟨[], [], [], []⟩

/-! ## Specification-side definitions

The following definitions restate parts of the specification in its own
words, for comparison with the embedded source functions above. -/

/-- Spec wording: the values drawn from a link spec's source list
(records without a `"value"` key contribute nothing; the source instead
raises, see `getValues`). -/
def specValues (l : List Rec) : List JVal :=
  l.filterMap (fun r => lookupKey r "value")

/-- Spec wording of the not-found branch: initialize on the incoming record,
for each link spec with a non-empty source list, its `fieldName` array with
all values from the source list. -/
def initLinks (specs : List OptsDict) (r : Rec) : Rec :=
  specs.foldl (fun r sp =>
    if sp.list.isEmpty then r
    else setKey r sp.name (JVal.arr (specValues sp.list))) r

/-- Spec wording of the found branch: for each link spec with a non-empty
source list, append to the matched record's `fieldName` array every source
value not already present in it (source order preserved, existing order
preserved, append at the end); no other field is altered. -/
def foundUpdate (specs : List OptsDict) (m : Rec) : Rec :=
  specs.foldl (fun m sp =>
    if sp.list.isEmpty then m
    else
      match lookupKey m sp.name with
      | some (JVal.arr a) =>
          setKey m sp.name
            (JVal.arr (a ++ (specValues sp.list).filter (fun v => !a.elem v)))
      | _ => m) m

/-- Spec wording of one merge iteration: search the accumulator for the
first record whose label equals the incoming record's label; update it in
place if found, else append the augmented incoming record at the end. -/
def mergeOneSpec (specs : List OptsDict) (item : Rec) : List Rec → List Rec
  | [] => [initLinks specs item]
  | r :: rs =>
      if lookupKey r "label" == lookupKey item "label" then
        foundUpdate specs r :: rs
      else r :: mergeOneSpec specs item rs

/-- Spec wording of the whole Cross-Link Merger: fold each incoming record
into the accumulator. -/
def merge_spec (single main : List Rec) (specs : List OptsDict) : List Rec :=
  single.foldl (fun main item => mergeOneSpec specs item main) main

/-- The record has key `k` bound to a list value. -/
def isArrField (r : Rec) (k : String) : Bool :=
  match lookupKey r k with
  | some (JVal.arr _) => true
  | _ => false

/-- Well-formedness of an accumulator record for a given link-spec list:
it has a `"label"`, and for every link spec with a non-empty source list it
already carries the spec's field as a list (this is what the source's
found branch requires to run without a `KeyError`/`TypeError`). -/
def wfRec (specs : List OptsDict) (r : Rec) : Prop :=
  (lookupKey r "label").isSome = true ∧
    ∀ sp ∈ specs, sp.list ≠ [] → isArrField r sp.name = true

/-- Well-formedness of a link-spec list: every source record carries a
`"value"` key (what the source's comprehensions require). -/
def wfSpecs (specs : List OptsDict) : Prop :=
  ∀ sp ∈ specs, ∀ rec ∈ sp.list, (lookupKey rec "value").isSome = true

instance (specs : List OptsDict) (r : Rec) : Decidable (wfRec specs r) := by
  unfold wfRec
  exact inferInstance

instance (specs : List OptsDict) : Decidable (wfSpecs specs) := by
  unfold wfSpecs
  exact inferInstance

/-- Record evolution across a merge: every field keeps its value, except
that a list-valued field may be extended at the end (never truncated,
never otherwise rewritten). -/
def recExtends (r r' : Rec) : Prop :=
  ∀ k v, lookupKey r k = some v →
    ∃ v', lookupKey r' k = some v' ∧
      (v' = v ∨ ∃ a b, v = JVal.arr a ∧ v' = JVal.arr (a ++ b))

/-- Accumulator-list evolution across a merge: no record is removed, every
surviving record keeps its position and only extends (per `recExtends`),
and new records are only appended after the existing ones. -/
def listExtends (l l' : List Rec) : Prop :=
  l.length ≤ l'.length ∧
    ∀ i r, l.get? i = some r → ∃ r', l'.get? i = some r' ∧ recExtends r r'

/-- `listExtends` on all four accumulators of `create_menu_options`. -/
def accsExtends (a a' : Accs) : Prop :=
  listExtends a.indicator_options a'.indicator_options ∧
  listExtends a.climate_model_options a'.climate_model_options ∧
  listExtends a.scenario_options a'.scenario_options ∧
  listExtends a.hazard_types a'.hazard_types

/-- The `value` field as the specification of claim C3 words it: format the
`indicator_id` template first, then replace `/` by `_`, then apply the
model-id / model-gcm suffix rules. -/
def valueSpecC3 (d : Doc) (pd : Subst) : Option String :=
  (pyFormat d.indicator_id pd).map (fun s => withAppends d (pyReplace s "/" "_"))

/-! ## Concrete documents used as test inputs -/

/-- A document with a 2×2 parameter cross-product and templates that
distinguish the combinations. -/
def docCross : Doc where
  hazard_type := "ChronicHeat"
  params := [("gcm", ["A", "B"]), ("rcp", ["45", "85"])]
  scenarios := [("ssp126", [JVal.num 2030])]
  display_name := "D {gcm} {rcp}"
  path := "{gcm}/{rcp}"
  indicator_id := "heat_{gcm}_{rcp}"
  indicator_model_id := ""
  indicator_model_gcm := "unknown"

/-- A document whose two combinations yield structurally identical
indicator records (constant templates). -/
def docCollapse : Doc where
  hazard_type := "X"
  params := [("p", ["1", "2"])]
  scenarios := []
  display_name := "D"
  path := "P"
  indicator_id := "p"
  indicator_model_id := ""
  indicator_model_gcm := "unknown"

/-- A document whose `display_name` template holds a placeholder `{x}` that
no parameter covers, with a non-empty combination. -/
def docUnresolved : Doc where
  hazard_type := "X"
  params := [("y", ["1"])]
  scenarios := []
  display_name := "{x}"
  path := "p"
  indicator_id := "y"
  indicator_model_id := ""
  indicator_model_gcm := "unknown"

/-- A document whose substituted parameter value contains a `/`. -/
def docSlash : Doc where
  hazard_type := "X"
  params := [("gcm", ["a/b"])]
  scenarios := []
  display_name := "{gcm}"
  path := "p"
  indicator_id := "{gcm}"
  indicator_model_id := ""
  indicator_model_gcm := "unknown"

/-- A document producing two indicator records with distinct labels but the
same `value`. -/
def docDupLinks : Doc where
  hazard_type := "X"
  params := [("gcm", ["A", "B"])]
  scenarios := []
  display_name := "{gcm}"
  path := "P"
  indicator_id := "gcmfixed"
  indicator_model_id := ""
  indicator_model_gcm := "unknown"

/-- A document with no `gcm` parameter (its indicator record is first
merged without any `climate_model_options` field). -/
def docNoGcm : Doc where
  hazard_type := "X"
  params := []
  scenarios := [("ssp126", [JVal.num 2030])]
  display_name := "D"
  path := "P"
  indicator_id := "heat"
  indicator_model_id := ""
  indicator_model_gcm := "unknown"

/-- A document with a `gcm` parameter whose indicator record carries the
same label as `docNoGcm`'s. -/
def docWithGcm : Doc where
  hazard_type := "X"
  params := [("gcm", ["A"])]
  scenarios := [("ssp126", [JVal.num 2050])]
  display_name := "D"
  path := "P2"
  indicator_id := "gcm_x"
  indicator_model_id := ""
  indicator_model_gcm := "unknown"

/-- A minimal placeholder-free document. -/
def docPlain : Doc where
  hazard_type := "X"
  params := []
  scenarios := []
  display_name := "D"
  path := "P"
  indicator_id := "I"
  indicator_model_id := ""
  indicator_model_gcm := "unknown"

/-- A document whose `gcm` value list repeats a value. -/
def docGcmTwice : Doc where
  hazard_type := "X"
  params := [("gcm", ["A", "A"])]
  scenarios := []
  display_name := "{gcm}"
  path := "P"
  indicator_id := "gcm_i"
  indicator_model_id := ""
  indicator_model_gcm := "unknown"

/-- A document whose `path` template holds a placeholder `{x}` that no
parameter covers (the `display_name` and `indicator_id` templates format
without error). -/
def docPathHole : Doc where
  hazard_type := "X"
  params := [("y", ["1"])]
  scenarios := []
  display_name := "d"
  path := "\x7bx\x7d/p"
  indicator_id := "y"
  indicator_model_id := ""
  indicator_model_gcm := "unknown"

/-! ## Basic lemmas on records and deduplication -/

theorem lookup_setKey_self (r : Rec) (k : String) (v : JVal) :
    lookupKey (setKey r k v) k = some v := by
  induction r with
  | nil => simp [setKey, lookupKey]
  | cons kv rest ih =>
      obtain ⟨k', v'⟩ := kv
      by_cases h : k' = k
      · simp [setKey, lookupKey, h]
      · have hb : (k' == k) = false := by simp [h]
        simp [setKey, lookupKey, hb, ih]

theorem lookup_setKey_ne (r : Rec) (k k' : String) (v : JVal) (h : k' ≠ k) :
    lookupKey (setKey r k v) k' = lookupKey r k' := by
  induction r with
  | nil =>
      have hb : (k == k') = false := by simp [Ne.symm h]
      simp [setKey, lookupKey, hb]
  | cons kv rest ih =>
      obtain ⟨k0, v0⟩ := kv
      by_cases h0 : k0 = k
      · subst h0
        have hb : (k0 == k0) = true := by simp
        have hb' : (k0 == k') = false := by simp [Ne.symm h]
        simp [setKey, lookupKey, hb, hb']
      · have hb : (k0 == k) = false := by simp [h0]
        by_cases h1 : k0 = k'
        · subst h1
          simp [setKey, lookupKey, hb]
        · have hb' : (k0 == k') = false := by simp [h1]
          simp [setKey, lookupKey, hb, hb', ih]

theorem lookup_of_mem_nodup {r : Rec} {k : String} {v : JVal}
    (hnd : (r.map Prod.fst).Nodup) (hm : (k, v) ∈ r) :
    lookupKey r k = some v := by
  induction r with
  | nil => simp at hm
  | cons kv rest ih =>
      obtain ⟨k0, v0⟩ := kv
      simp only [List.map_cons, List.nodup_cons] at hnd
      rcases List.mem_cons.mp hm with h | h
      · simp only [Prod.mk.injEq] at h
        obtain ⟨rfl, rfl⟩ := h
        simp [lookupKey]
      · have hk : k0 ≠ k := by
          intro he
          apply hnd.1
          rw [he]
          exact List.mem_map.mpr ⟨(k, v), h, rfl⟩
        have hb : (k0 == k) = false := by simp [hk]
        simp [lookupKey, hb]
        exact ih hnd.2 h

theorem recEq_refl {r : Rec} (hnd : (r.map Prod.fst).Nodup) : recEq r r = true := by
  have hall : ∀ kv ∈ r, lookupKey r kv.1 = some kv.2 := by
    intro kv hm
    exact lookup_of_mem_nodup hnd (by simpa using hm)
  simp only [recEq, Bool.and_eq_true, beq_iff_eq, List.all_eq_true]
  constructor
  · simp
  · intro kv hm
    simp [hall kv hm]

theorem dedupeAux_split :
    ∀ (xs seen : List Rec), ∃ k, dedupeAux seen xs = seen ++ k ∧ k.Sublist xs := by
  intro xs
  induction xs with
  | nil => intro seen; exact ⟨[], by simp [dedupeAux]⟩
  | cons x xs ih =>
      intro seen
      rw [dedupeAux]
      by_cases h : seen.any (fun u => recEq u x) = true
      · obtain ⟨k, hk, hs⟩ := ih seen
        exact ⟨k, by simp [h, hk], hs.cons x⟩
      · obtain ⟨k, hk, hs⟩ := ih (seen ++ [x])
        refine ⟨x :: k, ?_, hs.cons₂ x⟩
        simp [h, hk]

theorem dedupeAux_clean :
    ∀ (xs seen : List Rec),
      seen.Pairwise (fun a b => recEq a b = false) →
      (dedupeAux seen xs).Pairwise (fun a b => recEq a b = false) := by
  intro xs
  induction xs with
  | nil => intro seen h; simpa [dedupeAux] using h
  | cons x xs ih =>
      intro seen h
      rw [dedupeAux]
      by_cases hg : seen.any (fun u => recEq u x) = true
      · simpa [hg] using ih seen h
      · simp only [hg, if_false]
        refine ih (seen ++ [x]) ?_
        rw [List.pairwise_append]
        refine ⟨h, by simp, ?_⟩
        intro a ha b hb
        simp only [List.mem_singleton] at hb
        subst hb
        by_contra hne
        exact hg (List.any_eq_true.mpr ⟨a, ha, by simpa using hne⟩)

theorem dedupeAux_of_pairwise :
    ∀ (xs seen : List Rec),
      (seen ++ xs).Pairwise (fun a b => recEq a b = false) →
      dedupeAux seen xs = seen ++ xs := by
  intro xs
  induction xs with
  | nil => intro seen _; simp [dedupeAux]
  | cons x xs ih =>
      intro seen h
      have h' := h
      rw [List.pairwise_append] at h'
      have hx : ∀ u ∈ seen, recEq u x = false :=
        fun u hu => h'.2.2 u hu x (by simp)
      have hg : seen.any (fun u => recEq u x) = false := by
        simp only [List.any_eq_false]
        intro u hu
        simp [hx u hu]
      rw [dedupeAux, hg]
      simp only [Bool.false_eq_true, if_false]
      have : (seen ++ [x]) ++ xs = seen ++ x :: xs := by simp
      rw [ih (seen ++ [x]) (by rw [this]; exact h)]
      simp

theorem dedupeAux_covers :
    ∀ (xs seen : List Rec),
      (∀ x ∈ xs, (x.map Prod.fst).Nodup) →
      ∀ x ∈ xs, ∃ y ∈ dedupeAux seen xs, recEq y x = true := by
  intro xs
  induction xs with
  | nil => intro seen _ x hx; simp at hx
  | cons z xs ih =>
      intro seen hnd x hx
      rw [dedupeAux]
      by_cases hg : seen.any (fun u => recEq u z) = true
      · simp only [hg, if_true]
        rcases List.mem_cons.mp hx with rfl | hx'
        · simp only [List.any_eq_true] at hg
          obtain ⟨u, hu, hreq⟩ := hg
          obtain ⟨k, hk, _⟩ := dedupeAux_split xs seen
          exact ⟨u, by rw [hk]; exact List.mem_append_left _ hu, by simpa using hreq⟩
        · exact ih seen (fun a ha => hnd a (List.mem_cons_of_mem _ ha)) x hx'
      · simp only [hg, Bool.false_eq_true, if_false]
        rcases List.mem_cons.mp hx with rfl | hx'
        · obtain ⟨k, hk, _⟩ := dedupeAux_split xs (seen ++ [x])
          refine ⟨x, ?_, recEq_refl (hnd x (by simp))⟩
          rw [hk]
          exact List.mem_append_left _ (by simp)
        · exact ih (seen ++ [z]) (fun a ha => hnd a (List.mem_cons_of_mem _ ha)) x hx'

/-- C9: `dedupe_dict` returns the records in first-seen order (its output is
a sublist of the input), dropping exactly the structural duplicates of an
earlier-kept record (on records with duplicate-free keys — as Python dicts
are — every input record keeps a dict-equal representative in the output);
consequently it is idempotent and its output contains no two
structurally-equal records. -/
theorem C9_dedupe_dict (L : List Rec) :
    dedupe_dict (dedupe_dict L) = dedupe_dict L ∧
    (dedupe_dict L).Pairwise (fun a b => recEq a b = false) ∧
    (dedupe_dict L).Sublist L ∧
    ((∀ r ∈ L, (r.map Prod.fst).Nodup) →
      ∀ x ∈ L, ∃ y ∈ dedupe_dict L, recEq y x = true) := by
  have hclean := dedupeAux_clean L [] (by simp)
  refine ⟨?_, hclean, ?_, ?_⟩
  · have := dedupeAux_of_pairwise (dedupe_dict L) [] (by simpa using hclean)
    simpa [dedupe_dict] using this
  · obtain ⟨k, hk, hs⟩ := dedupeAux_split L []
    have : dedupe_dict L = k := by simpa [dedupe_dict] using hk
    rw [this]
    exact hs
  · intro hnd x hx
    exact dedupeAux_covers L [] hnd x hx

/-- Witness for C9 at a concrete duplicated input. -/
theorem C9_dedupe_dict_witness :
    ∃ y ∈ dedupe_dict [[("a", JVal.str "1")], [("a", JVal.str "1")]],
      recEq y [("a", JVal.str "1")] = true :=
  (C9_dedupe_dict _).2.2.2 (by decide) _ (by simp)

/-- A string starting with `rcp` does not start with `ssp`. -/
theorem rcp_not_ssp {id : String} (h : pyStartsWith id "rcp" = true) :
    pyStartsWith id "ssp" = false := by
  unfold pyStartsWith at *
  have hr : "rcp".data = ['r', 'c', 'p'] := rfl
  have hs : "ssp".data = ['s', 's', 'p'] := rfl
  rw [hr] at h
  rw [hs]
  cases hd : id.data with
  | nil => rw [hd] at h; simp [List.isPrefixOf] at h
  | cons c cs =>
      rw [hd] at h
      simp only [List.isPrefixOf, Bool.and_eq_true, beq_iff_eq] at h
      obtain ⟨rfl, -⟩ := h
      simp [List.isPrefixOf]

/-- C8 (amended): for every scenario id, an id starting with `ssp` of length
exactly 6 is formatted as `SSP` + char 3 + `-` + char 4 + `.` + chars from
5 on; an id starting with `rcp` (any length) is formatted as `RCP-` plus
the suffix after `rcp` with every `p` replaced by `.`; any other id is
unchanged.  Concretely `ssp126 ↦ SSP1-2.6`, `historical ↦ historical`, and
`rcp45 ↦ RCP-45` (the suffix `45` holds no `p`, so nothing is replaced). -/
theorem C8_scenarioLabel (id : String) :
    (pyStartsWith id "ssp" = true → id.data.length = 6 →
        scenarioLabel id =
          "SSP" ++ String.mk (id.data.drop 3 |>.take 1) ++ "-"
            ++ String.mk (id.data.drop 4 |>.take 1) ++ "."
            ++ String.mk (id.data.drop 5)) ∧
    (pyStartsWith id "rcp" = true →
        scenarioLabel id = "RCP-" ++ pyReplace (String.mk (id.data.drop 3)) "p" ".") ∧
    (¬(pyStartsWith id "ssp" = true ∧ id.data.length = 6) →
        pyStartsWith id "rcp" = false → scenarioLabel id = id) ∧
    scenarioLabel "ssp126" = "SSP1-2.6" ∧
    scenarioLabel "rcp45" = "RCP-45" ∧
    scenarioLabel "historical" = "historical" := by
  refine ⟨?_, ?_, ?_, by decide, by decide, by decide⟩
  · intro h1 h2
    have hc : (pyStartsWith id "ssp" && (id.data.length == 6)) = true := by
      simp [h1, h2]
    rw [scenarioLabel, if_pos hc]
  · intro h
    have hs := rcp_not_ssp h
    have hc : (pyStartsWith id "ssp" && (id.data.length == 6)) = false := by
      simp [hs]
    rw [scenarioLabel, if_neg (by rw [hc]; simp), if_pos h]
  · intro h1 h2
    have hc : (pyStartsWith id "ssp" && (id.data.length == 6)) = false := by
      cases hb : (pyStartsWith id "ssp" && (id.data.length == 6))
      · rfl
      · exfalso
        simp only [Bool.and_eq_true, beq_iff_eq] at hb
        exact h1 hb
    rw [scenarioLabel, if_neg (by rw [hc]; simp), if_neg (by simp [h2])]

/-- Witness for C8 at the concrete id `rcp4p5` (whose suffix does contain a
`p` to replace: the label is `RCP-4.5`). -/
theorem C8_scenarioLabel_witness :
    scenarioLabel "rcp4p5" =
      "RCP-" ++ pyReplace (String.mk ("rcp4p5".data.drop 3)) "p" "." :=
  (C8_scenarioLabel "rcp4p5").2.1 (by decide)

/-- Counterexample for C8 as stated: the claim's example asserts
`formatScenarioLabel("rcp45") == "RCP-4.5"`, but the code formats `rcp45`
as `RCP-45` — the suffix `45` holds no `p`, so no `.` is inserted. -/
theorem C8_counterexample :
    scenarioLabel "rcp45" ≠ "RCP-4.5" ∧ scenarioLabel "rcp45" = "RCP-45" := by
  constructor
  · decide
  · decide

/-- `dedupe_dict` output never holds two dict-equal records. -/
theorem dedupe_dict_clean (X : List Rec) :
    (dedupe_dict X).Pairwise (fun a b => recEq a b = false) :=
  dedupeAux_clean X [] (by simp)

/-- The Indicator Expander's output is a `dedupe_dict` image. -/
theorem get_indicator_options_shape {d : Doc} {ind : List Rec}
    (h : get_indicator_options d = some ind) :
    ∃ recs,
      (listProd (d.params.map Prod.snd)).mapM (fun vs =>
        indicatorRecord d ((d.params.map Prod.fst).zip vs)) = some recs ∧
      ind = dedupe_dict recs := by
  have hdef : get_indicator_options d =
      ((listProd (d.params.map Prod.snd)).mapM (fun vs =>
        indicatorRecord d ((d.params.map Prod.fst).zip vs))).bind
        (fun recs => some (dedupe_dict recs)) := rfl
  rw [hdef] at h
  cases hm : (listProd (d.params.map Prod.snd)).mapM (fun vs =>
      indicatorRecord d ((d.params.map Prod.fst).zip vs)) with
  | none => rw [hm] at h; simp at h
  | some recs =>
      rw [hm] at h
      simp only [Option.some_bind, Option.some.injEq] at h
      exact ⟨recs, rfl, h.symm⟩

/-- C7 (amended): per document, `hazardTypes`, `scenarioOptions` and
`indicatorOptions` contain no two structurally identical records, and
`climateModelOptions` contains one record
`{value: gcm, label: "CMIP6: " + gcm}` per occurrence of each `gcm` value
(empty when `params` has no `gcm` key) — but it is NOT deduplicated, so a
repeated input value yields structural duplicates there. -/
theorem C7_extract (d : Doc) (ind cm sc hz : List Rec)
    (h : get_menu_items_from_file d = some (ind, cm, sc, hz)) :
    ind.Pairwise (fun a b => recEq a b = false) ∧
    sc.Pairwise (fun a b => recEq a b = false) ∧
    hz.Pairwise (fun a b => recEq a b = false) ∧
    cm = (match lookupParam d.params "gcm" with
          | some gcms =>
              gcms.map (fun gcm =>
                [("value", JVal.str gcm), ("label", JVal.str ("CMIP6: " ++ gcm))])
          | none => []) := by
  have hdef : get_menu_items_from_file d =
      (get_indicator_options d).bind (fun io =>
        some (io, get_climate_model_options d.params,
          get_scenario_options d.scenarios,
          get_hazard_types d.hazard_type)) := rfl
  rw [hdef] at h
  cases hio : get_indicator_options d with
  | none => rw [hio] at h; simp at h
  | some io =>
      rw [hio] at h
      simp only [Option.some_bind, Option.some.injEq, Prod.mk.injEq] at h
      obtain ⟨rfl, rfl, rfl, rfl⟩ := h
      refine ⟨?_, ?_, ?_, ?_⟩
      · obtain ⟨recs, -, hd⟩ := get_indicator_options_shape hio
        rw [hd]
        exact dedupe_dict_clean recs
      · exact dedupe_dict_clean _
      · exact dedupe_dict_clean _
      · rfl

/-- Witness for C7 at the concrete placeholder-free document `docPlain`. -/
theorem C7_extract_witness :
    ([[("label", JVal.str "D"), ("value", JVal.str "I"), ("path", JVal.str "P")]]
        : List Rec).Pairwise (fun a b => recEq a b = false) ∧
    ([] : List Rec).Pairwise (fun a b => recEq a b = false) ∧
    ([[("label", JVal.str "X"), ("value", JVal.str "X")]]
        : List Rec).Pairwise (fun a b => recEq a b = false) ∧
    ([] : List Rec) =
      (match lookupParam docPlain.params "gcm" with
       | some gcms =>
           gcms.map (fun gcm =>
             [("value", JVal.str gcm), ("label", JVal.str ("CMIP6: " ++ gcm))])
       | none => []) :=
  C7_extract docPlain
    [[("label", JVal.str "D"), ("value", JVal.str "I"), ("path", JVal.str "P")]]
    [] []
    [[("label", JVal.str "X"), ("value", JVal.str "X")]]
    (by rfl)

/-- Counterexample for C7 as stated: with `params = {"gcm": ["A", "A"]}` the
Option Extractor returns a `climateModelOptions` list holding the same
record twice (`get_climate_model_options` applies no `dedupe_dict`), so the
four lists are not all duplicate-free. -/
theorem C7_counterexample :
    (get_menu_items_from_file docGcmTwice).map (fun q => q.2.1) =
      some [[("value", JVal.str "A"), ("label", JVal.str "CMIP6: A")],
            [("value", JVal.str "A"), ("label", JVal.str "CMIP6: A")]] ∧
    recEq [("value", JVal.str "A"), ("label", JVal.str "CMIP6: A")]
          [("value", JVal.str "A"), ("label", JVal.str "CMIP6: A")] = true := by
  exact ⟨by decide, by decide⟩

/-- Non-strict token substitution never fails and equals the rendering that
keeps unresolved placeholders verbatim. -/
theorem pyFmtTokens_nonstrict (m : Subst) :
    ∀ toks, pyFmtTokens false m toks = some (renderNS m toks) := by
  intro toks
  induction toks with
  | nil => rfl
  | cons t ts ih =>
      cases t with
      | lit c => simp [pyFmtTokens, renderNS, renderTok, ih]
      | hole n =>
          cases hl : lookupSubst m n with
          | some v => simp [pyFmtTokens, renderNS, renderTok, hl, ih]
          | none => simp [pyFmtTokens, renderNS, renderTok, hl, ih]

/-- Strict token substitution fails exactly when some placeholder of the
token stream is unresolved by the mapping. -/
theorem pyFmtTokens_strict_none_iff (m : Subst) :
    ∀ toks, (pyFmtTokens true m toks = none ↔
      ∃ n, n ∈ holeNames toks ∧ lookupSubst m n = none) := by
  intro toks
  induction toks with
  | nil => simp [pyFmtTokens, holeNames]
  | cons t ts ih =>
      cases t with
      | lit c =>
          have hd : pyFmtTokens true m (Tok.lit c :: ts) =
              (fun s => c.toString ++ s) <$> pyFmtTokens true m ts := rfl
          have hh : holeNames (Tok.lit c :: ts) = holeNames ts := rfl
          rw [hd, hh]
          cases hr : pyFmtTokens true m ts with
          | none => exact iff_of_true rfl (ih.mp hr)
          | some s =>
              refine iff_of_false (by simp) ?_
              rintro ⟨n', hn', hl'⟩
              have := ih.mpr ⟨n', hn', hl'⟩
              rw [this] at hr
              cases hr
      | hole n =>
          cases hl : lookupSubst m n with
          | some v =>
              have hd : pyFmtTokens true m (Tok.hole n :: ts) =
                  (fun s => v ++ s) <$> pyFmtTokens true m ts := by
                simp [pyFmtTokens, hl]
              have hh : holeNames (Tok.hole n :: ts) = n :: holeNames ts := rfl
              rw [hd, hh]
              cases hr : pyFmtTokens true m ts with
              | none =>
                  obtain ⟨n', hn', hl'⟩ := ih.mp hr
                  exact iff_of_true rfl ⟨n', List.mem_cons_of_mem _ hn', hl'⟩
              | some s =>
                  refine iff_of_false (by simp) ?_
                  rintro ⟨n', hn', hl'⟩
                  rcases List.mem_cons.mp hn' with rfl | hmem
                  · rw [hl] at hl'
                    cases hl'
                  · have := ih.mpr ⟨n', hmem, hl'⟩
                    rw [this] at hr
                    cases hr
          | none =>
              have hd : pyFmtTokens true m (Tok.hole n :: ts) = none := by
                simp [pyFmtTokens, hl]
              rw [hd]
              have hh : holeNames (Tok.hole n :: ts) = n :: holeNames ts := rfl
              rw [hh]
              exact iff_of_true rfl ⟨n, List.mem_cons_self n _, hl⟩

/-- Characterization of one emitted indicator record: the `label` carries
the computed display name, the `value` the strictly-formatted
(`/`-replaced-first) identifier with its suffixes, and the `path` the
tolerantly-formatted path template (the raw templates when the combination
is empty). -/
theorem indicatorRecord_some {d : Doc} {pd : Subst} {r : Rec}
    (h : indicatorRecord d pd = some r) :
    ∃ dn path iid,
      pyFormat (pyReplace d.indicator_id "/" "_") pd = some iid ∧
      (pd = [] → dn = d.display_name ∧ path = d.path) ∧
      (pd ≠ [] → pyFormatMap d.path pd = some path) ∧
      r = [("label", JVal.str dn), ("value", JVal.str (withAppends d iid)),
           ("path", JVal.str path)] := by
  cases pd with
  | nil =>
      have hdef : indicatorRecord d [] =
          (pyFormat (pyReplace d.indicator_id "/" "_") []).bind (fun iid =>
            some [("label", JVal.str d.display_name),
                  ("value", JVal.str (withAppends d iid)),
                  ("path", JVal.str d.path)]) := rfl
      rw [hdef] at h
      cases hiid : pyFormat (pyReplace d.indicator_id "/" "_") [] with
      | none => rw [hiid] at h; cases h
      | some iid =>
          rw [hiid] at h
          simp only [Option.some_bind, Option.some.injEq] at h
          exact ⟨d.display_name, d.path, iid, rfl, fun _ => ⟨rfl, rfl⟩,
            fun hne => absurd rfl hne, h.symm⟩
  | cons kv ks =>
      rw [indicatorRecord] at h
      · simp only [Option.bind_eq_bind, Option.bind_eq_some, Option.pure_def,
          Option.some.injEq] at h
        obtain ⟨dns, hdns, dn, hlast, path, hpath, iid, hiid, hr⟩ := h
        exact ⟨dn, path, iid, hiid, fun he => absurd he (by simp),
          fun _ => hpath, hr.symm⟩
      · simp

/-- C2 (amended): unresolved placeholders never fail and are preserved
verbatim only in the non-strict formatting used for the `path` template:
(a) non-strict substitution always succeeds and renders an unresolved
`{name}` verbatim (b, by definition of the rendering); (c) the strict
substitution used for `display_name` and `indicator_id` fails exactly when
some placeholder is unresolved; (d) every emitted indicator record's `path`
is the non-strict rendering of the tokenized `path` template, with
unresolved placeholders left verbatim. -/
theorem C2_placeholders :
    (∀ (m : Subst) (toks : List Tok),
      pyFmtTokens false m toks = some (renderNS m toks)) ∧
    (∀ (m : Subst) (n : String), lookupSubst m n = none →
      renderTok m (Tok.hole n) = "\x7b" ++ n ++ "\x7d") ∧
    (∀ (m : Subst) (toks : List Tok),
      (pyFmtTokens true m toks = none ↔
        ∃ n, n ∈ holeNames toks ∧ lookupSubst m n = none)) ∧
    (∀ (d : Doc) (pd : Subst) (r : Rec), pd ≠ [] → indicatorRecord d pd = some r →
      ∃ toks, tokenize d.path.data = some toks ∧
        lookupKey r "path" = some (JVal.str (renderNS pd toks))) := by
  refine ⟨pyFmtTokens_nonstrict, ?_, pyFmtTokens_strict_none_iff, ?_⟩
  · intro m n hl
    simp [renderTok, hl]
  · intro d pd r hne h
    obtain ⟨dn, path, iid, hiid, -, hpath, hr⟩ := indicatorRecord_some h
    have hp := hpath hne
    unfold pyFormatMap at hp
    cases ht : tokenize d.path.data with
    | none => rw [ht] at hp; cases hp
    | some toks =>
        rw [ht] at hp
        simp only [Option.some_bind] at hp
        rw [pyFmtTokens_nonstrict pd toks] at hp
        obtain rfl : renderNS pd toks = path := by
          simpa using hp
        refine ⟨toks, rfl, ?_⟩
        rw [hr]
        simp [lookupKey]

/-- Witness for C2 at the concrete document `docPathHole`, whose `path`
template holds the unresolved placeholder `{x}`: the emitted record's path
is the verbatim rendering. -/
theorem C2_placeholders_witness :
    ∃ toks, tokenize docPathHole.path.data = some toks ∧
      lookupKey [("label", JVal.str "d"), ("value", JVal.str "y"),
                 ("path", JVal.str "\x7bx\x7d/p")] "path" =
        some (JVal.str (renderNS [("y", "1")] toks)) :=
  C2_placeholders.2.2.2 docPathHole [("y", "1")]
    [("label", JVal.str "d"), ("value", JVal.str "y"),
     ("path", JVal.str "\x7bx\x7d/p")]
    (by simp) (by rfl)

/-- Counterexample for C2 as stated: the claim says an unresolved
placeholder in the `display_name` template is left verbatim and never
raises; but `display_name` (and `indicator_id`) use strict formatting, so
`docUnresolved` (display name template `{x}`, combination `{y: "1"}`)
makes the Indicator Expander fail with a `KeyError` instead. -/
theorem C2_counterexample : get_indicator_options docUnresolved = none := by
  rfl

/-- C3 (amended): the emitted `value` equals the `indicator_id` template
with `/` replaced by `_` FIRST and the combination substituted strictly
AFTERWARDS (so a `/` inside a substituted parameter value survives), then
`_` + `indicator_model_id` (its `/` replaced by `_`) when that field is
non-empty, then `_` + `indicator_model_gcm` unless that field is `unknown`
or `{gcm}`. -/
theorem C3_value (d : Doc) (pd : Subst) (r : Rec)
    (h : indicatorRecord d pd = some r) :
    ∃ s, pyFormat (pyReplace d.indicator_id "/" "_") pd = some s ∧
      lookupKey r "value" = some (JVal.str (withAppends d s)) := by
  obtain ⟨dn, path, iid, hiid, -, -, hr⟩ := indicatorRecord_some h
  refine ⟨iid, hiid, ?_⟩
  rw [hr]
  simp [lookupKey]

/-- Witness for C3 at the concrete document `docSlash`. -/
theorem C3_value_witness :
    ∃ s, pyFormat (pyReplace docSlash.indicator_id "/" "_") [("gcm", "a/b")] =
        some s ∧
      lookupKey [("label", JVal.str "a/b"), ("value", JVal.str "a/b"),
                 ("path", JVal.str "p")] "value" =
        some (JVal.str (withAppends docSlash s)) :=
  C3_value docSlash [("gcm", "a/b")]
    [("label", JVal.str "a/b"), ("value", JVal.str "a/b"),
     ("path", JVal.str "p")]
    (by rfl)

/-- Counterexample for C3 as stated: the claim formats first and replaces
`/` afterwards (`valueSpecC3`), which on `docSlash` (value `a/b` for
`{gcm}`) yields `a_b`; the code replaces `/` in the template before
formatting, so the emitted `value` keeps the slash: `a/b`. -/
theorem C3_counterexample :
    get_indicator_options docSlash =
      some [[("label", JVal.str "a/b"), ("value", JVal.str "a/b"),
             ("path", JVal.str "p")]] ∧
    valueSpecC3 docSlash [("gcm", "a/b")] = some "a_b" ∧
    ("a/b" : String) ≠ "a_b" := by
  exact ⟨by rfl, by rfl, by decide⟩

/-- The row-major cross-product's size is the product of the value-list
lengths. -/
theorem listProd_length :
    ∀ ls : List (List String), (listProd ls).length = (ls.map List.length).prod := by
  intro ls
  induction ls with
  | nil => simp [listProd]
  | cons l ls ih =>
      have hflat : ∀ (l' : List String),
          (l'.flatMap (fun x => (listProd ls).map (x :: ·))).length =
            l'.length * (listProd ls).length := by
        intro l'
        induction l' with
        | nil => simp
        | cons a l' ihl =>
            simp only [List.flatMap_cons, List.length_append, List.length_map, ihl]
            rw [List.length_cons, Nat.succ_mul, Nat.add_comm]
      rw [listProd, hflat, ih, List.map_cons, List.prod_cons]

/-- For two parameters the cross-product enumerates the first parameter
slowest and the second fastest (row-major order). -/
theorem listProd_pair (xs ys : List String) :
    listProd [xs, ys] = xs.flatMap (fun x => ys.map (fun y => [x, y])) := by
  have h1 : listProd [ys] = ys.map (fun y => [y]) := by
    rw [listProd]
    induction ys with
    | nil => simp
    | cons b ys ihy => simp_all [List.flatMap_cons, listProd]
  rw [listProd, h1]
  congr 1
  funext x
  rw [List.map_map]
  rfl

/-- With no parameters the Indicator Expander emits exactly one record from
the raw `display_name` and `path` templates (when the strict formatting of
`indicator_id` succeeds). -/
theorem get_indicator_options_empty_params (d : Doc) (s : String)
    (hp : d.params = [])
    (hs : pyFormat (pyReplace d.indicator_id "/" "_") [] = some s) :
    get_indicator_options d =
      some [[("label", JVal.str d.display_name),
             ("value", JVal.str (withAppends d s)),
             ("path", JVal.str d.path)]] := by
  have hrec : indicatorRecord d [] =
      some [("label", JVal.str d.display_name),
            ("value", JVal.str (withAppends d s)),
            ("path", JVal.str d.path)] := by
    have hdef2 : indicatorRecord d [] =
        (pyFormat (pyReplace d.indicator_id "/" "_") []).bind (fun iid =>
          some [("label", JVal.str d.display_name),
                ("value", JVal.str (withAppends d iid)),
                ("path", JVal.str d.path)]) := rfl
    rw [hdef2, hs]
    rfl
  have hdef : get_indicator_options d =
      ((listProd (d.params.map Prod.snd)).mapM (fun vs =>
        indicatorRecord d ((d.params.map Prod.fst).zip vs))).bind
        (fun recs => some (dedupe_dict recs)) := rfl
  rw [hdef, hp]
  simp only [List.map_nil, listProd, List.mapM_cons, List.mapM_nil,
    List.zip_nil_left, hrec]
  rfl

/-- C6 (amended): the Indicator Expander builds one record per combination
of the row-major cross-product of the `params` value lists (first
parameter slowest, last fastest) and then removes structural duplicates
with `dedupe_dict` — so two combinations yielding identical records
collapse into one; with empty `params` exactly one record is emitted, from
the unmodified `display_name` and `path` templates (provided the strict
formatting of `indicator_id` succeeds); the concrete 2×2 example
`{gcm: [A,B], rcp: [45,85]}` with distinguishing templates yields exactly
4 records in row-major order. -/
theorem C6_cross_product :
    (∀ (d : Doc) (recs : List Rec),
      (listProd (d.params.map Prod.snd)).mapM (fun vs =>
        indicatorRecord d ((d.params.map Prod.fst).zip vs)) = some recs →
      get_indicator_options d = some (dedupe_dict recs)) ∧
    (∀ ls : List (List String),
      (listProd ls).length = (ls.map List.length).prod) ∧
    (∀ xs ys : List String,
      listProd [xs, ys] = xs.flatMap (fun x => ys.map (fun y => [x, y]))) ∧
    (∀ (d : Doc) (s : String), d.params = [] →
      pyFormat (pyReplace d.indicator_id "/" "_") [] = some s →
      get_indicator_options d =
        some [[("label", JVal.str d.display_name),
               ("value", JVal.str (withAppends d s)),
               ("path", JVal.str d.path)]]) ∧
    get_indicator_options docCross =
      some [[("label", JVal.str "D A 45"), ("value", JVal.str "heat_A_45"),
             ("path", JVal.str "A/45")],
            [("label", JVal.str "D A 85"), ("value", JVal.str "heat_A_85"),
             ("path", JVal.str "A/85")],
            [("label", JVal.str "D B 45"), ("value", JVal.str "heat_B_45"),
             ("path", JVal.str "B/45")],
            [("label", JVal.str "D B 85"), ("value", JVal.str "heat_B_85"),
             ("path", JVal.str "B/85")]] := by
  refine ⟨?_, listProd_length, listProd_pair,
    get_indicator_options_empty_params, by rfl⟩
  intro d recs h
  have hdef : get_indicator_options d =
      ((listProd (d.params.map Prod.snd)).mapM (fun vs =>
        indicatorRecord d ((d.params.map Prod.fst).zip vs))).bind
        (fun recs => some (dedupe_dict recs)) := rfl
  rw [hdef, h]
  rfl

/-- Witness for C6 at the parameterless document `docPlain`. -/
theorem C6_cross_product_witness :
    get_indicator_options docPlain =
      some [[("label", JVal.str docPlain.display_name),
             ("value", JVal.str (withAppends docPlain "I")),
             ("path", JVal.str docPlain.path)]] :=
  C6_cross_product.2.2.2.1 docPlain "I" (by rfl) (by rfl)

/-- Counterexample for C6 as stated: `docCollapse` has two combinations
(`{p: "1"}` and `{p: "2"}`) but constant templates, so the two emitted
records are identical and `dedupe_dict` collapses them — the Expander
returns one record, not one per combination. -/
theorem C6_counterexample :
    get_indicator_options docCollapse =
      some [[("label", JVal.str "D"), ("value", JVal.str "p"),
             ("path", JVal.str "P")]] ∧
    (listProd (docCollapse.params.map Prod.snd)).length = 2 := by
  exact ⟨by rfl, by rfl⟩

/-! ## Lemmas on the Cross-Link Merger -/

theorem isArrField_iff {r : Rec} {k : String} :
    isArrField r k = true ↔ ∃ a, lookupKey r k = some (JVal.arr a) := by
  unfold isArrField
  cases h : lookupKey r k with
  | none => simp
  | some v => cases v <;> simp

theorem lookup_isSome_setKey {r : Rec} {k k' : String} {v : JVal}
    (h : (lookupKey r k').isSome = true) :
    (lookupKey (setKey r k v) k').isSome = true := by
  by_cases he : k' = k
  · subst he
    rw [lookup_setKey_self]
    rfl
  · rw [lookup_setKey_ne r k k' v he]
    exact h

theorem isArrField_setKey_arr {r : Rec} {k k' : String} {x : List JVal}
    (h : isArrField r k' = true ∨ k' = k) :
    isArrField (setKey r k (JVal.arr x)) k' = true := by
  by_cases he : k' = k
  · subst he
    rw [isArrField_iff]
    exact ⟨x, lookup_setKey_self r k' (JVal.arr x)⟩
  · rcases h with h | h
    · rw [isArrField_iff] at h ⊢
      obtain ⟨a, ha⟩ := h
      exact ⟨a, by rw [lookup_setKey_ne r k k' _ he]; exact ha⟩
    · exact absurd h he

theorem getValues_eq {l : List Rec}
    (h : ∀ rec ∈ l, (lookupKey rec "value").isSome = true) :
    getValues l = some (specValues l) := by
  induction l with
  | nil => rfl
  | cons r l ih =>
      have hr := h r (by simp)
      cases hv : lookupKey r "value" with
      | none => rw [hv] at hr; cases hr
      | some v =>
          have ht := ih (fun rec hrec => h rec (List.mem_cons_of_mem _ hrec))
          simp only [getValues, List.mapM_cons, hv, Option.some_bind]
          simp only [getValues] at ht
          rw [ht]
          simp [specValues, List.filterMap_cons, hv]

/-- One `initLinks` step of the spec-side fold. -/
theorem initLinks_cons (sp : OptsDict) (specs : List OptsDict) (r : Rec) :
    initLinks (sp :: specs) r =
      initLinks specs
        (if sp.list.isEmpty then r
         else setKey r sp.name (JVal.arr (specValues sp.list))) := by
  rfl

theorem foldlM_applySpecNew {specs : List OptsDict} (hs : wfSpecs specs) :
    ∀ r : Rec, specs.foldlM applySpecNew r = some (initLinks specs r) := by
  induction specs with
  | nil => intro r; rfl
  | cons sp specs ih =>
      intro r
      have hs' : wfSpecs specs :=
        fun sp' h' rec hrec => hs sp' (List.mem_cons_of_mem _ h') rec hrec
      rw [List.foldlM_cons, initLinks_cons]
      by_cases he : sp.list.isEmpty
      · have : applySpecNew r sp = some r := by simp [applySpecNew, he]
        rw [this, he]
        simp only [if_true]
        exact ih hs' r
      · have hper : ∀ rec ∈ sp.list, (lookupKey rec "value").isSome = true :=
          fun rec hrec => hs sp (by simp) rec hrec
        have : applySpecNew r sp =
            some (setKey r sp.name (JVal.arr (specValues sp.list))) := by
          simp [applySpecNew, he, getValues_eq hper]
        rw [this]
        simp only [he, if_false, Option.some_bind]
        exact ih hs' _

theorem initLinks_lookup_ne {specs : List OptsDict} {k : String}
    (hn : ∀ sp ∈ specs, sp.name ≠ k) :
    ∀ r : Rec, lookupKey (initLinks specs r) k = lookupKey r k := by
  induction specs with
  | nil => intro r; rfl
  | cons sp specs ih =>
      intro r
      rw [initLinks_cons]
      rw [ih (fun sp' h' => hn sp' (List.mem_cons_of_mem _ h'))]
      by_cases he : sp.list.isEmpty
      · rw [if_pos he]
      · rw [if_neg he, lookup_setKey_ne r sp.name k _ ?_]
        exact fun hk => hn sp (by simp) hk.symm

theorem initLinks_preserves_arrField {specs : List OptsDict} {k : String} :
    ∀ r : Rec, isArrField r k = true → isArrField (initLinks specs r) k = true := by
  induction specs with
  | nil => intro r h; exact h
  | cons sp specs ih =>
      intro r h
      rw [initLinks_cons]
      by_cases he : sp.list.isEmpty
      · rw [if_pos he]; exact ih r h
      · rw [if_neg he]
        exact ih _ (isArrField_setKey_arr (Or.inl h))

theorem initLinks_label {specs : List OptsDict} :
    ∀ r : Rec, (lookupKey r "label").isSome = true →
      (lookupKey (initLinks specs r) "label").isSome = true := by
  induction specs with
  | nil => intro r h; exact h
  | cons sp specs ih =>
      intro r h
      rw [initLinks_cons]
      by_cases he : sp.list.isEmpty
      · rw [if_pos he]; exact ih r h
      · rw [if_neg he]
        exact ih _ (lookup_isSome_setKey h)

theorem initLinks_arrField {specs : List OptsDict} :
    ∀ r : Rec, ∀ sp ∈ specs, sp.list ≠ [] →
      isArrField (initLinks specs r) sp.name = true := by
  induction specs with
  | nil => intro r sp h; cases h
  | cons sp0 specs ih =>
      intro r sp hmem hne
      rw [initLinks_cons]
      rcases List.mem_cons.mp hmem with rfl | hmem'
      · have he : ¬sp.list.isEmpty := by
          cases hl : sp.list
          · exact absurd hl hne
          · simp [hl]
        rw [if_neg he]
        exact initLinks_preserves_arrField _ (isArrField_setKey_arr (Or.inr rfl))
      · exact ih _ sp hmem' hne

/-- `initLinks` makes a record well-formed for its own link specs. -/
theorem initLinks_wf {specs : List OptsDict} {r : Rec}
    (h : (lookupKey r "label").isSome = true) :
    wfRec specs (initLinks specs r) :=
  ⟨initLinks_label r h, fun sp hmem hne => initLinks_arrField r sp hmem hne⟩

/-- One `foundUpdate` step of the spec-side fold. -/
theorem foundUpdate_cons (sp : OptsDict) (specs : List OptsDict) (m : Rec) :
    foundUpdate (sp :: specs) m =
      foundUpdate specs
        (if sp.list.isEmpty then m
         else
           match lookupKey m sp.name with
           | some (JVal.arr a) =>
               setKey m sp.name
                 (JVal.arr (a ++ (specValues sp.list).filter (fun v => !a.elem v)))
           | _ => m) := by
  rfl

theorem foldlM_applySpecFound {specs : List OptsDict} (hs : wfSpecs specs) :
    ∀ m : Rec, (∀ sp ∈ specs, sp.list ≠ [] → isArrField m sp.name = true) →
      specs.foldlM applySpecFound m = some (foundUpdate specs m) := by
  induction specs with
  | nil => intro m _; rfl
  | cons sp specs ih =>
      intro m hm
      have hs' : wfSpecs specs :=
        fun sp' h' rec hrec => hs sp' (List.mem_cons_of_mem _ h') rec hrec
      rw [List.foldlM_cons, foundUpdate_cons]
      by_cases he : sp.list.isEmpty
      · have : applySpecFound m sp = some m := by simp [applySpecFound, he]
        rw [this, he]
        simp only [if_true, Option.some_bind]
        exact ih hs' m (fun sp' h' hne => hm sp' (List.mem_cons_of_mem _ h') hne)
      · have hne : sp.list ≠ [] := by
          cases hl : sp.list
          · rw [hl] at he; exact absurd rfl he
          · simp
        obtain ⟨a, ha⟩ := isArrField_iff.mp (hm sp (by simp) hne)
        have hper : ∀ rec ∈ sp.list, (lookupKey rec "value").isSome = true :=
          fun rec hrec => hs sp (by simp) rec hrec
        have happ : applySpecFound m sp =
            some (setKey m sp.name
              (JVal.arr (a ++ (specValues sp.list).filter (fun v => !a.elem v)))) := by
          simp [applySpecFound, he, getValues_eq hper, ha]
        rw [happ]
        simp only [he, if_false, Option.some_bind, ha]
        refine ih hs' _ ?_
        intro sp' h' hne'
        by_cases hk : sp'.name = sp.name
        · exact isArrField_setKey_arr (Or.inr hk)
        · exact isArrField_setKey_arr
            (Or.inl (hm sp' (List.mem_cons_of_mem _ h') hne'))

theorem foundUpdate_lookup_ne {specs : List OptsDict} {k : String}
    (hn : ∀ sp ∈ specs, sp.name ≠ k) :
    ∀ m : Rec, lookupKey (foundUpdate specs m) k = lookupKey m k := by
  induction specs with
  | nil => intro m; rfl
  | cons sp specs ih =>
      intro m
      rw [foundUpdate_cons]
      rw [ih (fun sp' h' => hn sp' (List.mem_cons_of_mem _ h'))]
      by_cases he : sp.list.isEmpty
      · rw [if_pos he]
      · rw [if_neg he]
        cases hl : lookupKey m sp.name with
        | none => rfl
        | some v =>
            cases v with
            | arr a =>
                rw [lookup_setKey_ne m sp.name k _
                  (fun hk => hn sp (by simp) hk.symm)]
            | str s => rfl
            | num n => rfl

theorem foundUpdate_label {specs : List OptsDict} :
    ∀ m : Rec, (lookupKey m "label").isSome = true →
      (lookupKey (foundUpdate specs m) "label").isSome = true := by
  induction specs with
  | nil => intro m h; exact h
  | cons sp specs ih =>
      intro m h
      rw [foundUpdate_cons]
      by_cases he : sp.list.isEmpty
      · rw [if_pos he]; exact ih m h
      · rw [if_neg he]
        cases hl : lookupKey m sp.name with
        | none => exact ih m h
        | some v =>
            cases v with
            | arr a => exact ih _ (lookup_isSome_setKey h)
            | str s => exact ih m h
            | num n => exact ih m h

theorem foundUpdate_arrField {specs : List OptsDict} {k : String} :
    ∀ m : Rec, isArrField m k = true →
      isArrField (foundUpdate specs m) k = true := by
  induction specs with
  | nil => intro m h; exact h
  | cons sp specs ih =>
      intro m h
      rw [foundUpdate_cons]
      by_cases he : sp.list.isEmpty
      · rw [if_pos he]; exact ih m h
      · rw [if_neg he]
        cases hl : lookupKey m sp.name with
        | none => exact ih m h
        | some v =>
            cases v with
            | arr a =>
                refine ih _ ?_
                by_cases hk : k = sp.name
                · exact isArrField_setKey_arr (Or.inr hk)
                · exact isArrField_setKey_arr (Or.inl h)
            | str s => exact ih m h
            | num n => exact ih m h

/-- `foundUpdate` keeps a record well-formed. -/
theorem foundUpdate_wf {specs : List OptsDict} {m : Rec}
    (h : wfRec specs m) : wfRec specs (foundUpdate specs m) :=
  ⟨foundUpdate_label m h.1,
   fun sp hmem hne => foundUpdate_arrField m (h.2 sp hmem hne)⟩

/-- On an empty accumulator the merge appends the augmented record. -/
theorem updateOne_nil {specs : List OptsDict} (hs : wfSpecs specs) (item : Rec) :
    updateOne specs item [] = some [initLinks specs item] := by
  rw [updateOne]
  by_cases he : specs.isEmpty
  · have : specs = [] := by
      cases specs
      · rfl
      · simp at he
    subst this
    rfl
  · simp only [he, if_false, foldlM_applySpecNew hs item, Option.some_bind]
    rfl

/-- Under the well-formedness conditions, one merge iteration of the source
equals the spec-side `mergeOneSpec`. -/
theorem updateOne_eq {specs : List OptsDict} {item : Rec} (hs : wfSpecs specs)
    (hitem : (lookupKey item "label").isSome = true) :
    ∀ main : List Rec, (∀ r ∈ main, wfRec specs r) →
      updateOne specs item main = some (mergeOneSpec specs item main) := by
  intro main
  induction main with
  | nil => intro _; exact updateOne_nil hs item
  | cons r rs ih =>
      intro hmain
      have hr := hmain r (by simp)
      obtain ⟨ml, hml⟩ := Option.isSome_iff_exists.mp hr.1
      obtain ⟨il, hil⟩ := Option.isSome_iff_exists.mp hitem
      rw [updateOne, mergeOneSpec]
      simp only [hml, hil, Option.bind_eq_bind, Option.some_bind]
      by_cases hbeq : (ml == il) = true
      · have hguard : (some ml == some il) = true := by
          simpa using hbeq
        rw [if_pos hbeq,
          foldlM_applySpecFound hs r (fun sp hmem hne => hr.2 sp hmem hne)]
        simp only [Option.some_bind]
        rw [if_pos hguard]
        rfl
      · have hguard : ¬((some ml == some il) = true) := by
          simpa using hbeq
        rw [if_neg hbeq,
          ih (fun r' h' => hmain r' (List.mem_cons_of_mem _ h'))]
        simp only [Option.some_bind]
        rw [if_neg hguard]
        rfl

/-- `mergeOneSpec` keeps every accumulator record well-formed. -/
theorem mergeOneSpec_wf {specs : List OptsDict} {item : Rec}
    (hitem : (lookupKey item "label").isSome = true) :
    ∀ main : List Rec, (∀ r ∈ main, wfRec specs r) →
      ∀ r ∈ mergeOneSpec specs item main, wfRec specs r := by
  intro main
  induction main with
  | nil =>
      intro _ r hr
      rw [mergeOneSpec] at hr
      simp only [List.mem_singleton] at hr
      subst hr
      exact initLinks_wf hitem
  | cons r0 rs ih =>
      intro hmain r hr
      rw [mergeOneSpec] at hr
      by_cases hg : (lookupKey r0 "label" == lookupKey item "label") = true
      · rw [if_pos hg] at hr
        rcases List.mem_cons.mp hr with rfl | hr'
        · exact foundUpdate_wf (hmain r0 (by simp))
        · exact hmain r (List.mem_cons_of_mem _ hr')
      · rw [if_neg hg] at hr
        rcases List.mem_cons.mp hr with rfl | hr'
        · exact hmain r (by simp)
        · exact ih (fun r' h' => hmain r' (List.mem_cons_of_mem _ h')) r hr'

/-- C1 (amended): under the conditions the source itself needs to run
without an exception — every accumulator record has a `"label"` and
already carries, as a list, the `fieldName` of every linkSpec with a
non-empty sourceList; every incoming record has a `"label"`; every
sourceList record has a `"value"` — `update_options` returns exactly the
merge described by the (amended) specification `merge_spec`: a first
label match gets every source value not already present appended at the
end of its `fieldName` array (source order kept, no other field altered);
an unmatched record is appended after being initialized, for each linkSpec
with a NON-EMPTY sourceList only, with all source values (a linkSpec with
an empty sourceList leaves the field absent, it is not initialized to an
empty array). -/
theorem C1_update_options (single main : List Rec) (specs : List OptsDict)
    (hmain : ∀ r ∈ main, wfRec specs r)
    (hsingle : ∀ r ∈ single, (lookupKey r "label").isSome = true)
    (hs : wfSpecs specs) :
    update_options single main specs = some (merge_spec single main specs) := by
  induction single generalizing main with
  | nil => rfl
  | cons item single ih =>
      have hitem := hsingle item (by simp)
      rw [update_options, List.foldlM_cons,
        updateOne_eq hs hitem main hmain]
      simp only [Option.bind_eq_bind, Option.some_bind]
      have hmain' := mergeOneSpec_wf hitem main hmain
      have := ih (mergeOneSpec specs item main) hmain'
        (fun r h' => hsingle r (List.mem_cons_of_mem _ h'))
      rw [update_options] at this
      rw [this]
      rfl

/-- Witness for C1 at concrete records: an incoming record matches the
accumulator record by label, and the link spec appends the one new value. -/
theorem C1_update_options_witness :
    update_options
      [[("label", JVal.str "A"), ("value", JVal.str "1")]]
      [[("label", JVal.str "A"), ("value", JVal.str "0"),
        ("links", JVal.arr [JVal.str "x"])]]
      [⟨"links", [[("value", JVal.str "y")]]⟩] =
    some (merge_spec
      [[("label", JVal.str "A"), ("value", JVal.str "1")]]
      [[("label", JVal.str "A"), ("value", JVal.str "0"),
        ("links", JVal.arr [JVal.str "x"])]]
      [⟨"links", [[("value", JVal.str "y")]]⟩]) :=
  C1_update_options _ _ _ (by decide) (by decide) (by decide)

/-- Counterexample for C1 as stated: in the not-found branch with a
non-empty `linkSpecs` list whose single spec has an EMPTY sourceList, the
claim prescribes initializing the record's `fieldName` to the empty array;
the code skips the initialization entirely (`if options_list != []`), so
the appended record has no such key at all. -/
theorem C1_counterexample :
    update_options [[("label", JVal.str "L")]] [] [⟨"links", []⟩] =
      some [[("label", JVal.str "L")]] ∧
    lookupKey [("label", JVal.str "L")] "links" = none := by
  exact ⟨by rfl, by rfl⟩

theorem recExtends_refl (r : Rec) : recExtends r r :=
  fun k v h => ⟨v, h, Or.inl rfl⟩

theorem recExtends_trans {r1 r2 r3 : Rec}
    (h12 : recExtends r1 r2) (h23 : recExtends r2 r3) : recExtends r1 r3 := by
  intro k v h
  obtain ⟨v2, hv2, hc2⟩ := h12 k v h
  obtain ⟨v3, hv3, hc3⟩ := h23 k v2 hv2
  refine ⟨v3, hv3, ?_⟩
  rcases hc2 with rfl | ⟨a, b, rfl, rfl⟩
  · exact hc3
  · rcases hc3 with rfl | ⟨a', b', ha', rfl⟩
    · exact Or.inr ⟨a, b, rfl, rfl⟩
    · right
      obtain rfl : a' = a ++ b := by
        injection ha' with h'
        exact h'.symm
      exact ⟨a, b ++ b', rfl, by rw [List.append_assoc]⟩

theorem applySpecFound_extends {m m' : Rec} {sp : OptsDict}
    (h : applySpecFound m sp = some m') : recExtends m m' := by
  unfold applySpecFound at h
  by_cases he : sp.list.isEmpty
  · rw [if_pos he] at h
    obtain rfl : m = m' := by injection h
    exact recExtends_refl _
  · rw [if_neg he] at h
    cases hv : getValues sp.list with
    | none => rw [hv] at h; cases h
    | some vals =>
        rw [hv] at h
        simp only [Option.bind_eq_bind, Option.some_bind] at h
        cases hl : lookupKey m sp.name with
        | none => rw [hl] at h; cases h
        | some v =>
            rw [hl] at h
            cases v with
            | arr a =>
                simp only [Option.some.injEq] at h
                subst h
                intro k w hw
                by_cases hk : k = sp.name
                · subst hk
                  rw [hl] at hw
                  obtain rfl : JVal.arr a = w := by injection hw
                  exact ⟨_, lookup_setKey_self m sp.name _,
                    Or.inr ⟨a, _, rfl, rfl⟩⟩
                · exact ⟨w, by rw [lookup_setKey_ne m sp.name k _ hk]; exact hw,
                    Or.inl rfl⟩
            | str s => cases h
            | num n => cases h

theorem foldlM_applySpecFound_extends {m m' : Rec} :
    ∀ {specs : List OptsDict}, specs.foldlM applySpecFound m = some m' →
      recExtends m m' := by
  intro specs
  induction specs generalizing m with
  | nil =>
      intro h
      obtain rfl : m = m' := by injection h
      exact recExtends_refl _
  | cons sp specs ih =>
      intro h
      rw [List.foldlM_cons] at h
      cases ha : applySpecFound m sp with
      | none => rw [ha] at h; cases h
      | some m1 =>
          rw [ha] at h
          simp only [Option.bind_eq_bind, Option.some_bind] at h
          exact recExtends_trans (applySpecFound_extends ha) (ih h)

theorem listExtends_refl (l : List Rec) : listExtends l l :=
  ⟨le_refl _, fun i r h => ⟨r, h, recExtends_refl r⟩⟩

theorem listExtends_trans {l1 l2 l3 : List Rec}
    (h12 : listExtends l1 l2) (h23 : listExtends l2 l3) : listExtends l1 l3 := by
  refine ⟨le_trans h12.1 h23.1, ?_⟩
  intro i r h
  obtain ⟨r2, h2, he2⟩ := h12.2 i r h
  obtain ⟨r3, h3, he3⟩ := h23.2 i r2 h2
  exact ⟨r3, h3, recExtends_trans he2 he3⟩

theorem updateOne_extends {specs : List OptsDict} {item : Rec} :
    ∀ {main main' : List Rec}, updateOne specs item main = some main' →
      listExtends main main' := by
  intro main
  induction main with
  | nil =>
      intro main' h
      exact ⟨Nat.zero_le _, fun i r hr => by simp at hr⟩
  | cons r rs ih =>
      intro main' h
      rw [updateOne] at h
      cases hml : lookupKey r "label" with
      | none => rw [hml] at h; cases h
      | some ml =>
          rw [hml] at h
          cases hil : lookupKey item "label" with
          | none => rw [hil] at h; cases h
          | some il =>
              rw [hil] at h
              simp only [Option.bind_eq_bind, Option.some_bind] at h
              by_cases hg : (ml == il) = true
              · rw [if_pos hg] at h
                cases hf : specs.foldlM applySpecFound r with
                | none => rw [hf] at h; cases h
                | some m' =>
                    rw [hf] at h
                    simp only [Option.some_bind, Option.pure_def,
                      Option.some.injEq] at h
                    subst h
                    refine ⟨by simp, ?_⟩
                    intro i x hx
                    cases i with
                    | zero =>
                        obtain rfl : r = x := by
                          simpa using hx
                        exact ⟨m', rfl, foldlM_applySpecFound_extends hf⟩
                    | succ i =>
                        exact ⟨x, by simpa using hx, recExtends_refl x⟩
              · rw [if_neg hg] at h
                cases hrec : updateOne specs item rs with
                | none => rw [hrec] at h; cases h
                | some rest =>
                    rw [hrec] at h
                    simp only [Option.some_bind, Option.pure_def,
                      Option.some.injEq] at h
                    subst h
                    obtain ⟨hlen, hidx⟩ := ih hrec
                    refine ⟨by simpa using hlen, ?_⟩
                    intro i x hx
                    cases i with
                    | zero =>
                        obtain rfl : r = x := by simpa using hx
                        exact ⟨_, rfl, recExtends_refl _⟩
                    | succ i =>
                        obtain ⟨x', hx', he⟩ := hidx i x (by simpa using hx)
                        exact ⟨x', by simpa using hx', he⟩

theorem update_options_extends {specs : List OptsDict} :
    ∀ {single main main' : List Rec},
      update_options single main specs = some main' → listExtends main main' := by
  intro single
  induction single with
  | nil =>
      intro main main' h
      obtain rfl : main = main' := by injection h
      exact listExtends_refl _
  | cons item single ih =>
      intro main main' h
      rw [update_options, List.foldlM_cons] at h
      cases h1 : updateOne specs item main with
      | none => rw [h1] at h; cases h
      | some m1 =>
          rw [h1] at h
          simp only [Option.bind_eq_bind, Option.some_bind] at h
          rw [show List.foldlM (fun acc item => updateOne specs item acc) m1 single
              = update_options single m1 specs from rfl] at h
          exact listExtends_trans (updateOne_extends h1) (ih h)

/-- C4 (amended): across every merge step of `create_menu_options`'s fold,
each of the four accumulator lists only grows: no record is removed, every
surviving record keeps its position, every field keeps its value except
that link arrays may be extended at the end (never truncated) — but a link
array MAY come to hold the same value twice, so the claim's
no-duplicates conjunct does not hold (see the counterexample). -/
theorem C4_merge_monotonic (accs : Accs) (d : Doc) (accs' : Accs)
    (h : mergeStep accs d = some accs') : accsExtends accs accs' := by
  unfold mergeStep at h
  cases hq : get_menu_items_from_file d with
  | none => rw [hq] at h; cases h
  | some q =>
      rw [hq] at h
      obtain ⟨ind, cm, sc, hz⟩ := q
      simp only [Option.bind_eq_bind, Option.some_bind, Option.bind_eq_some,
        Option.pure_def, Option.some.injEq] at h
      obtain ⟨hz', hhz, ind', hind, cm', hcm, sc', hsc, hacc⟩ := h
      subst hacc
      exact ⟨update_options_extends hind, update_options_extends hcm,
        update_options_extends hsc, update_options_extends hhz⟩

/-- Witness for C4: one step on `docPlain` from empty accumulators. -/
theorem C4_merge_monotonic_witness :
    accsExtends ⟨[], [], [], []⟩
      ⟨[[("label", JVal.str "D"), ("value", JVal.str "I"),
         ("path", JVal.str "P")]], [], [],
       [[("label", JVal.str "X"), ("value", JVal.str "X"),
         ("indicator_options", JVal.arr [JVal.str "I"])]]⟩ :=
  C4_merge_monotonic ⟨[], [], [], []⟩ docPlain _ (by rfl)

/-- Counterexample for C4 as stated: one document (`docDupLinks`) whose two
indicator records share the `value` `gcmfixed` gives the merged hazard-type
record a link array holding that value twice — the merge checks membership
against the array as it was before the extension, so both copies are
appended. -/
theorem C4_counterexample :
    (create_menu_options [docDupLinks]).map
      (fun a => a.hazard_types.map (fun r => lookupKey r "indicator_options")) =
    some [some (JVal.arr [JVal.str "gcmfixed", JVal.str "gcmfixed"])] := by
  rfl

/-- C5: merge identity is the `label` field.  Two records with equal labels
but different `value`s merge into a single accumulator record whose `value`
(and any other non-link field) is the first-seen record's; two records with
different labels stay distinct records even if every other field matches.
(Hypotheses: the records carry labels, the link specs' source records carry
values, and no link spec writes the `label`/`value` fields — the conditions
under which the source runs without an exception.) -/
theorem C5_merge_identity (r1 r2 : Rec) (specs : List OptsDict)
    (h1 : (lookupKey r1 "label").isSome = true)
    (h2 : (lookupKey r2 "label").isSome = true)
    (hs : wfSpecs specs)
    (hn : ∀ sp ∈ specs, sp.name ≠ "label" ∧ sp.name ≠ "value") :
    (lookupKey r1 "label" = lookupKey r2 "label" →
      ∃ m, update_options [r1, r2] [] specs = some [m] ∧
        lookupKey m "label" = lookupKey r1 "label" ∧
        lookupKey m "value" = lookupKey r1 "value") ∧
    (lookupKey r1 "label" ≠ lookupKey r2 "label" →
      ∃ m1 m2, update_options [r1, r2] [] specs = some [m1, m2] ∧
        lookupKey m1 "label" = lookupKey r1 "label" ∧
        lookupKey m1 "value" = lookupKey r1 "value" ∧
        lookupKey m2 "label" = lookupKey r2 "label" ∧
        lookupKey m2 "value" = lookupKey r2 "value") := by
  have hnl : ∀ sp ∈ specs, sp.name ≠ "label" := fun sp h => (hn sp h).1
  have hnv : ∀ sp ∈ specs, sp.name ≠ "value" := fun sp h => (hn sp h).2
  have ha1 : updateOne specs r1 [] = some [initLinks specs r1] :=
    updateOne_nil hs r1
  have hla1 : lookupKey (initLinks specs r1) "label" = lookupKey r1 "label" :=
    initLinks_lookup_ne hnl r1
  obtain ⟨l1, hl1⟩ := Option.isSome_iff_exists.mp h1
  obtain ⟨l2, hl2⟩ := Option.isSome_iff_exists.mp h2
  have harr : ∀ sp ∈ specs, sp.list ≠ [] →
      isArrField (initLinks specs r1) sp.name = true :=
    initLinks_arrField r1
  constructor
  · intro heq
    have hll : l1 = l2 := by
      rw [hl1, hl2] at heq
      injection heq
    have hg : (l1 == l2) = true := by simp [hll]
    have ha2 : updateOne specs r2 [initLinks specs r1] =
        some [foundUpdate specs (initLinks specs r1)] := by
      rw [updateOne, hla1, hl1, hl2]
      simp only [Option.bind_eq_bind, Option.some_bind]
      rw [if_pos hg, foldlM_applySpecFound hs _ harr]
      simp only [Option.some_bind]
      rfl
    have hcomp : update_options [r1, r2] [] specs =
        some [foundUpdate specs (initLinks specs r1)] := by
      rw [update_options, List.foldlM_cons, ha1]
      simp only [Option.bind_eq_bind, Option.some_bind]
      rw [List.foldlM_cons, ha2]
      rfl
    refine ⟨_, hcomp, ?_, ?_⟩
    · rw [foundUpdate_lookup_ne hnl, initLinks_lookup_ne hnl]
    · rw [foundUpdate_lookup_ne hnv, initLinks_lookup_ne hnv]
  · intro hne
    have hll : l1 ≠ l2 := by
      intro he
      rw [hl1, hl2, he] at hne
      exact hne rfl
    have hg : ¬((l1 == l2) = true) := by simpa using hll
    have ha2 : updateOne specs r2 [initLinks specs r1] =
        some [initLinks specs r1, initLinks specs r2] := by
      rw [updateOne, hla1, hl1, hl2]
      simp only [Option.bind_eq_bind, Option.some_bind]
      rw [if_neg hg, updateOne_nil hs r2]
      simp only [Option.some_bind]
      rfl
    have hcomp : update_options [r1, r2] [] specs =
        some [initLinks specs r1, initLinks specs r2] := by
      rw [update_options, List.foldlM_cons, ha1]
      simp only [Option.bind_eq_bind, Option.some_bind]
      rw [List.foldlM_cons, ha2]
      rfl
    exact ⟨_, _, hcomp,
      initLinks_lookup_ne hnl r1, initLinks_lookup_ne hnv r1,
      initLinks_lookup_ne hnl r2, initLinks_lookup_ne hnv r2⟩

/-- Witness for C5 at concrete records sharing the label `A` with different
values: the merge keeps one record with the first-seen value. -/
theorem C5_merge_identity_witness :
    ∃ m, update_options
        [[("label", JVal.str "A"), ("value", JVal.str "1")],
         [("label", JVal.str "A"), ("value", JVal.str "2")]]
        [] [⟨"links", [[("value", JVal.str "y")]]⟩] = some [m] ∧
      lookupKey m "label" =
        lookupKey [("label", JVal.str "A"), ("value", JVal.str "1")] "label" ∧
      lookupKey m "value" =
        lookupKey [("label", JVal.str "A"), ("value", JVal.str "1")] "value" :=
  (C5_merge_identity
    [("label", JVal.str "A"), ("value", JVal.str "1")]
    [("label", JVal.str "A"), ("value", JVal.str "2")]
    [⟨"links", [[("value", JVal.str "y")]]⟩]
    (by decide) (by decide) (by decide) (by decide)).1 (by decide)

/-- C10: the missing-field error branch of the Cross-Link Merger is
reachable.  First conjunct: at the `update_options` level, a record first
appended while a link spec's source list was empty (so its `fieldName` was
never created) makes a later matching call with a non-empty source list
fail on the `main_item[options_name]` read.  Second and third conjuncts:
the same failure arises from the real pipeline — an indicator first seen in
a document without a `gcm` parameter (`docNoGcm`, which alone merges fine)
and matched by label in a later document that has one (`docWithGcm`) makes
`create_menu_options` fail instead of returning accumulators. -/
theorem C10_missing_field_reachable :
    ((update_options [[("label", JVal.str "L")]] [] [⟨"links", []⟩]).bind
      (fun m => update_options [[("label", JVal.str "L")]] m
        [⟨"links", [[("value", JVal.str "v")]]⟩])) = none ∧
    create_menu_options [docNoGcm, docWithGcm] = none ∧
    (create_menu_options [docNoGcm]).isSome = true := by
  exact ⟨by rfl, by rfl, by rfl⟩
